import Mathlib

/-!
A shallow embedding of `crt_scraper.py` (BerSecHub/ReconTools).

Strings are modelled through their code-point lists (`String.data`), matching
Python's `str`, which is a sequence of code points.  The Python string
primitives used by the scraper (`str.strip`, `str.count`, `str.split`,
`re.split(r'[\n,\s]+', ...)`, the `in` operator, `str.startswith`) are
reimplemented below on `List Char` and wrapped as `String` functions.

Network effects are made explicit: each adapter takes the (parsed) response of
its single HTTP GET as a parameter (`none` models a transport error or, for
the JSON adapter, a JSON decode failure), and the prober takes a `transport`
function mapping a request URL to `none` (a `requests.RequestException`) or to
the response of the redirect-following HEAD request.
-/

namespace CrtScraper

/-- ASCII whitespace, as stripped by Python `str.strip()` and matched by `\s`
(the ASCII fragment of the Unicode classes, which is all the scraper's data
exercises). -/
def isWsChar (c : Char) : Bool :=
  c = ' ' || c = '\t' || c = '\n' || c = '\r' || c = '\x0b' || c = '\x0c'

/-- The character class `[\n,\s]` of `re.split(r'[\n,\s]+', name_data)`:
whitespace or comma. -/
def isSepChar (c : Char) : Bool :=
  isWsChar c || c = ','

/-- Python `str.strip()`: drop leading and trailing whitespace. -/
def stripChars (l : List Char) : List Char :=
  ((l.dropWhile isWsChar).reverse.dropWhile isWsChar).reverse

/-- Python `str.strip()` on `String`. -/
def pyStrip (s : String) : String :=
  ⟨stripChars s.data⟩

/-- Python `re.split(r'[\n,\s]+', s)`: split on maximal runs of separator
characters.  Like `re.split`, a leading or trailing run yields an empty
token, and `splitRuns [] = [[]]`.  Written as a structural recursion over
the character list: a non-separator character extends the first token of
the remainder; a separator character opens a fresh (possibly empty) first
token unless the next character is also a separator (maximal runs produce a
single cut). -/
def splitRuns : List Char → List (List Char)
  | [] => [[]]
  | c :: t =>
    if isSepChar c then
      match t with
      | [] => [[], []]
      | c' :: _ => if isSepChar c' then splitRuns t else [] :: splitRuns t
    else
      match splitRuns t with
      | [] => [[c]]
      | tok :: rest => (c :: tok) :: rest

/-- Python `re.split(r'[\n,\s]+', s)` on `String`. -/
def pySplitSep (s : String) : List String :=
  (splitRuns s.data).map (fun l => ⟨l⟩)

/-- Python `hay.count(pat)` for a non-empty `pat`: number of non-overlapping
occurrences, scanning left to right; after a match the scan resumes past the
matched block.  The scan is paid for with explicit fuel so the recursion is
structural; every step consumes at least one character of `s`, so
`s.length + 1` units always suffice. -/
def countOccsAux : Nat → List Char → List Char → Nat
  | 0, _, _ => 0
  | _ + 1, [], s => s.length + 1
  | _ + 1, _ :: _, [] => 0
  | fuel + 1, p :: ps, c :: t =>
    if (p :: ps).isPrefixOf (c :: t) then 1 + countOccsAux fuel (p :: ps) (t.drop ps.length)
    else countOccsAux fuel (p :: ps) t

/-- Python `hay.count(pat)`.  (For the empty pattern Python returns
`len(hay) + 1`, which the fuelled scan also yields.) -/
def countOccs (pat s : List Char) : Nat :=
  countOccsAux (s.length + 1) pat s

/-- Python `s.count(pat)` on `String`. -/
def pyCount (pat s : String) : Nat :=
  countOccs pat.data s.data

/-- Worker for Python `s.split(sep)` with non-empty `sep`: cut at each
leftmost non-overlapping occurrence of `sep`.  `acc` holds the (reversed)
characters of the token being built; fuel as in `countOccsAux`. -/
def splitOnAux : Nat → List Char → List Char → List Char → List (List Char)
  | 0, _, s, acc => [acc.reverse ++ s]
  | _ + 1, [], s, acc => [acc.reverse ++ s]
  | _ + 1, _ :: _, [], acc => [acc.reverse]
  | fuel + 1, p :: ps, c :: t, acc =>
    if (p :: ps).isPrefixOf (c :: t) then
      acc.reverse :: splitOnAux fuel (p :: ps) (t.drop ps.length) []
    else
      splitOnAux fuel (p :: ps) t (c :: acc)

/-- Python `s.split(sep)` on `String` (non-empty `sep`; on the empty
separator, where Python raises `ValueError`, we return `[s]` to stay total —
the scraper only splits on a separator it has already counted at least twice
in `s`). -/
def pySplit (sep s : String) : List String :=
  match sep.data with
  | [] => [s]
  | _ => (splitOnAux (s.data.length + 1) sep.data s.data []).map (fun l => ⟨l⟩)

/-- Python `pat in hay` (substring test). -/
def containsSub (pat : List Char) : List Char → Bool
  | [] => pat.isEmpty
  | c :: t => pat.isPrefixOf (c :: t) || containsSub pat t

/-- Python `pat in hay` on `String`. -/
def pyContains (pat hay : String) : Bool :=
  containsSub pat.data hay.data

/-- Python `s.startswith('*.')`. -/
def startsWithStar (s : String) : Bool :=
  ['*', '.'].isPrefixOf s.data

/-- The wildcard stripping step: `if subdomain.startswith('*.'): subdomain =
subdomain[2:]`. -/
def stripWildcard (s : String) : String :=
  if startsWithStar s then ⟨s.data.drop 2⟩ else s

/-- The branch on `subdomain.count(domain) > 1` applied to an
already-stripped token `sub`: either concatenation recovery — split on the
domain, and for each part except the last keep `part + domain` when it is
non-empty and contains a `.` — or keep `sub` itself when it is non-empty,
contains a `.` and contains the domain. -/
def keepOrRecover (domain sub : String) : List String :=
  if pyCount domain sub > 1 then
    (pySplit domain sub).dropLast.filterMap (fun part =>
      if part ++ domain ≠ "" ∧ pyContains "." (part ++ domain) then some (part ++ domain)
      else none)
  else if sub ≠ "" ∧ pyContains "." sub ∧ pyContains domain sub then [sub] else []

/-- The per-token body of the extraction loop, identical in
`get_domains_from_html` (lines 68-82) and `get_domains_from_json`
(lines 116-130): strip the token, strip one `*.` marker, then
`keepOrRecover`. -/
def tokenCandidates (domain tok : String) : List String :=
  keepOrRecover domain (stripWildcard (pyStrip tok))

/-- One raw record's contribution: the guard `if name_data and domain in
name_data` followed by `re.split(r'[\n,\s]+', name_data)` and the token
loop. -/
def recordCandidates (domain r : String) : List String :=
  if r ≠ "" ∧ pyContains domain r then (pySplitSep r).flatMap (tokenCandidates domain)
  else []

/-- `domains.add(x)` on a Python `set` modelled as a duplicate-free list. -/
def setAdd (acc : List String) (x : String) : List String :=
  if x ∈ acc then acc else x :: acc

/-- The `domains` set accumulated over a whole response (a list of raw
records in page order). -/
def domainAccum (domain : String) (records : List String) : List String :=
  (records.flatMap (recordCandidates domain)).foldl setAdd []

/-- The order Python `sorted` uses on strings: lexicographic comparison of
code-point sequences. -/
def strLe (a b : String) : Prop :=
  a.data ≤ b.data

instance : DecidableRel strLe := fun a b =>
  (inferInstance : Decidable (a.data ≤ b.data))

instance : IsTrans String strLe :=
  ⟨fun _ _ _ hab hbc => le_trans hab hbc⟩

instance : IsTotal String strLe :=
  ⟨fun a b => le_total a.data b.data⟩

instance : IsAntisymm String strLe :=
  ⟨fun a b hab hba => by
    cases a; cases b
    exact congrArg String.mk (le_antisymm hab hba)⟩

/-- Python `sorted(list(domains))`. -/
def pySorted (l : List String) : List String :=
  l.insertionSort strLe

/-- `sorted(list(domains))` over the accumulated set: the value each adapter
returns on a successful fetch. -/
def extract (domain : String) (records : List String) : List String :=
  pySorted (domainAccum domain records)

/-- The adapter parameters `(domain, include_wildcard, exclude_expired,
timeout, verbose)` threaded from `main` into both adapters and into the
JSON adapter's fallback call. -/
structure FetchArgs where
  domain : String
  includeWildcard : Bool
  excludeExpired : Bool
  timeout : Nat
  verbose : Bool
deriving DecidableEq

/-- The raw records `get_domains_from_html` extracts from the parsed page:
for each table row with at least 6 cells, the stripped text of `cells[5]`
(the sixth cell).  A row is modelled as its list of cell texts. -/
def htmlRecords (rows : List (List String)) : List String :=
  rows.filterMap (fun cells =>
    if 6 ≤ cells.length then some (pyStrip (cells.getD 5 "")) else none)

/-- `get_domains_from_html`, with the parsed HTTP response made explicit:
`none` models a `requests.RequestException` (the `except` branch returns
`[]`), `some rows` the parsed table rows. -/
def get_domains_from_html (a : FetchArgs) (htmlResp : Option (List (List String))) :
    List String :=
  match htmlResp with
  | none => []
  | some rows => extract a.domain (htmlRecords rows)

/-- The raw records of the JSON path: `entry.get('name_value', '')` for each
entry, where an entry is modelled by its optional `name_value` field. -/
def jsonRecords (entries : List (Option String)) : List String :=
  entries.map (fun e => e.getD "")

/-- `get_domains_from_json`, with both possible HTTP responses explicit:
`jsonResp = none` models a `requests.RequestException` or a
`json.JSONDecodeError`, in which case the code falls back to
`get_domains_from_html` with the same arguments.  The second component
records the argument tuples of the fallback calls made to the HTML
adapter. -/
def get_domains_from_json (a : FetchArgs) (jsonResp : Option (List (Option String)))
    (htmlResp : Option (List (List String))) : List String × List FetchArgs :=
  match jsonResp with
  | some entries => (extract a.domain (jsonRecords entries), [])
  | none => (get_domains_from_html a htmlResp, [a])

/-- Response of a redirect-following HEAD request: final status code and
final URL (`response.status_code` and `response.url`). -/
structure HeadResponse where
  status : Nat
  finalUrl : String
deriving DecidableEq

/-- The dict returned by `check_domain_status`: `ok` for a completed request
(`{'domain', 'url', 'status_code', 'redirected'}`), `err` for the
both-attempts-failed dict (`{'domain', 'url', 'status_code': 0,
'error': True}`). -/
inductive ProbeResult where
  | ok (domain url : String) (statusCode : Nat) (redirected : Bool)
  | err (domain url : String)
deriving DecidableEq

/-- The `status_code` field of a probe result dict. -/
def ProbeResult.statusCode : ProbeResult → Nat
  | .ok _ _ s _ => s
  | .err _ _ => 0

/-- `check_domain_status`, instrumented: a `transport` maps a request URL to
`none` (a `requests.RequestException`) or to the HEAD response; the second
component is the list of URLs actually requested, in order.  The loop tries
`https://` then `http://`, returning on the first success; a failure of the
`http` attempt returns the error dict. -/
def checkDomainStatusTrace (transport : String → Option HeadResponse) (domain : String) :
    ProbeResult × List String :=
  match transport ("https://" ++ domain) with
  | some r =>
    (.ok domain ("https://" ++ domain) r.status (r.finalUrl ≠ "https://" ++ domain),
      ["https://" ++ domain])
  | none =>
    match transport ("http://" ++ domain) with
    | some r =>
      (.ok domain ("http://" ++ domain) r.status (r.finalUrl ≠ "http://" ++ domain),
        ["https://" ++ domain, "http://" ++ domain])
    | none =>
      (.err domain ("http://" ++ domain), ["https://" ++ domain, "http://" ++ domain])

/-- `check_domain_status`: the returned dict alone. -/
def check_domain_status (transport : String → Option HeadResponse) (domain : String) :
    ProbeResult :=
  (checkDomainStatusTrace transport domain).1

/-- `urlparse(u).netloc` for the absolute URLs the prober sees: the part
after `://`, up to the first `/`, `?` or `#`. -/
def urlHost (u : String) : String :=
  ⟨((splitOnAux (u.data.length + 1) "://".data u.data []).getD 1 []).takeWhile
    (fun c => !(c = '/' || c = '?' || c = '#'))⟩

/-- The observable outcome of `main`: process exit code, whether the
certificate-log fetch was issued, and the domain list written to the output
file (`none` when `main` prints `No domains found.` and returns). -/
structure MainOutcome where
  exitCode : Nat
  networkUsed : Bool
  written : Option (List String)
deriving DecidableEq

/-- `main` (lines 218-244): validate the domain (exit 1 on `not args.domain
or '.' not in args.domain` before any request), fetch via the selected
adapter, and either report no domains or write the sorted list.  The status
check and printing never change the exit code, so they are not part of the
outcome. -/
def mainRun (a : FetchArgs) (useJson : Bool) (jsonResp : Option (List (Option String)))
    (htmlResp : Option (List (List String))) : MainOutcome :=
  if a.domain = "" ∨ ¬ pyContains "." a.domain then ⟨1, false, none⟩
  else
    let domains := if useJson then (get_domains_from_json a jsonResp htmlResp).1
      else get_domains_from_html a htmlResp
    if domains = [] then ⟨0, true, none⟩ else ⟨0, true, some domains⟩

/-- Spec-side predicate (not from the code): `u` is a valid subdomain of the
target domain `d` — it is `d` itself or ends in `.d`, the target domain
occurs in it exactly once (the spec's rule 5 covers exactly the
single-occurrence tokens; multi-occurrence tokens are its malformed
"concatenation" case), and it does not itself begin with the wildcard
marker. -/
def ValidSubdomain (d u : String) : Prop :=
  (u = d ∨ ∃ pre, pre ≠ "" ∧ u = pre ++ "." ++ d) ∧ pyCount d u = 1 ∧
    startsWithStar u = false

/-- Spec-side predicate: a token of a clean raw text — a valid subdomain,
optionally carrying one `*.` wildcard marker. -/
def CleanToken (d t : String) : Prop :=
  ValidSubdomain d t ∨ ∃ u, t = "*." ++ u ∧ ValidSubdomain d u

/-- Fixture transport: the secure endpoint is unreachable and the plain
endpoint answers 200 (the final URL gains the normalizing trailing
slash). -/
def fallbackTransport : String → Option HeadResponse := fun u =>
  if u = "http://example.com" then some ⟨200, "http://example.com/"⟩ else none

/-- Fixture transport: the secure HEAD completes but its final URL differs
from the requested URL only in the path (same host), as after a path-only
redirect. -/
def pathRedirectTransport : String → Option HeadResponse := fun u =>
  if u = "https://example.com" then some ⟨200, "https://example.com/login"⟩ else none

/-! ### Helper lemmas -/

theorem mk_eq_empty_iff (l : List Char) : (⟨l⟩ : String) = "" ↔ l = [] :=
  ⟨fun h => congrArg String.data h, fun h => by rw [h]⟩

theorem ne_empty_iff_data (s : String) : s ≠ "" ↔ s.data ≠ [] := by
  cases s with
  | mk l => exact not_congr (mk_eq_empty_iff l)

theorem isPrefixOf_refl (l : List Char) : l.isPrefixOf l = true := by
  induction l with
  | nil => rfl
  | cons c t ih => simp [List.isPrefixOf, ih]

theorem containsSub_append_self (p pat : List Char) : containsSub pat (p ++ pat) = true := by
  induction p with
  | nil =>
    cases pat with
    | nil => rfl
    | cons c t => simp [containsSub, isPrefixOf_refl]
  | cons c t ih => simp [containsSub, ih]

theorem containsSub_iff_isInfix (pat l : List Char) : containsSub pat l = true ↔ pat <:+: l := by
  induction l with
  | nil => simp [containsSub, List.isEmpty_iff]
  | cons c t ih => simp [containsSub, ih, List.infix_cons_iff, List.isPrefixOf_iff_prefix]

theorem pyContains_append_self (p d : String) : pyContains d (p ++ d) = true := by
  unfold pyContains
  rw [String.data_append]
  exact containsSub_append_self p.data d.data

theorem pyContains_ne_empty {pat x : String} (hpat : pat ≠ "") (h : pyContains pat x = true) :
    x ≠ "" := by
  intro hx
  subst hx
  have hb : pat.data.isEmpty = true := h
  rw [List.isEmpty_iff] at hb
  exact (ne_empty_iff_data pat).mp hpat hb

theorem dropWhile_eq_self_of {p : Char → Bool} {l : List Char} (h : ∀ c ∈ l, p c = false) :
    l.dropWhile p = l := by
  cases l with
  | nil => rfl
  | cons c t => simp [List.dropWhile, h c (List.mem_cons_self c t)]

theorem stripChars_eq_self {l : List Char} (h : ∀ c ∈ l, isWsChar c = false) :
    stripChars l = l := by
  unfold stripChars
  rw [dropWhile_eq_self_of h]
  rw [dropWhile_eq_self_of (fun c hc => h c (List.mem_reverse.mp hc))]
  exact List.reverse_reverse l

theorem pyStrip_eq_self {t : String} (h : ∀ c ∈ t.data, isWsChar c = false) :
    pyStrip t = t := by
  cases t with
  | mk l =>
    unfold pyStrip
    rw [stripChars_eq_self h]

theorem splitRuns_ne_nil (cs : List Char) : splitRuns cs ≠ [] := by
  induction cs with
  | nil => simp [splitRuns]
  | cons c t ih =>
    unfold splitRuns
    by_cases h : isSepChar c = true
    · cases t with
      | nil => simp [h]
      | cons c' t' =>
        by_cases h' : isSepChar c' = true
        · simpa [h, h'] using ih
        · simp [h, h']
    · cases hsr : splitRuns t with
      | nil => exact absurd hsr ih
      | cons tok rest => simp [h, hsr]

theorem splitRuns_head (cs : List Char) :
    (splitRuns cs).head? = some (cs.takeWhile (fun c => !isSepChar c)) := by
  induction cs with
  | nil => rfl
  | cons c t ih =>
    by_cases h : isSepChar c = true
    · cases t with
      | nil => simp [splitRuns, List.takeWhile_cons, h]
      | cons c' t' =>
        by_cases h' : isSepChar c' = true
        · rw [show splitRuns (c :: c' :: t') = splitRuns (c' :: t') by simp [splitRuns, h, h']]
          rw [ih]
          simp [List.takeWhile_cons, h, h']
        · simp [splitRuns, h, h', List.takeWhile_cons]
    · cases hsr : splitRuns t with
      | nil => exact absurd hsr (splitRuns_ne_nil t)
      | cons tok rest =>
        have htok : tok = t.takeWhile (fun c => !isSepChar c) := by
          have h2 := ih
          rw [hsr] at h2
          simpa using h2
        simp [splitRuns, h, hsr, List.takeWhile_cons, htok]

theorem splitRuns_mem (cs : List Char) :
    ∀ t ∈ splitRuns cs, t <:+: cs ∧ ∀ c ∈ t, isSepChar c = false := by
  induction cs with
  | nil =>
    intro t ht
    simp [splitRuns] at ht
    subst ht
    exact ⟨List.nil_infix, by simp⟩
  | cons c t ih =>
    intro tok htok
    by_cases h : isSepChar c = true
    · cases t with
      | nil =>
        simp [splitRuns, h] at htok
        subst htok
        exact ⟨List.nil_infix, by simp⟩
      | cons c' t' =>
        by_cases h' : isSepChar c' = true
        · rw [show splitRuns (c :: c' :: t') = splitRuns (c' :: t') by
            simp [splitRuns, h, h']] at htok
          obtain ⟨hinf, hchars⟩ := ih tok htok
          exact ⟨hinf.trans (List.suffix_cons c (c' :: t')).isInfix, hchars⟩
        · rw [show splitRuns (c :: c' :: t') = [] :: splitRuns (c' :: t') by
            simp [splitRuns, h, h']] at htok
          rcases List.mem_cons.mp htok with rfl | hmem
          · exact ⟨List.nil_infix, by simp⟩
          · obtain ⟨hinf, hchars⟩ := ih tok hmem
            exact ⟨hinf.trans (List.suffix_cons c (c' :: t')).isInfix, hchars⟩
    · cases hsr : splitRuns t with
      | nil => exact absurd hsr (splitRuns_ne_nil t)
      | cons tok0 rest =>
        have htok0 : tok0 = t.takeWhile (fun c => !isSepChar c) := by
          have h2 := splitRuns_head t
          rw [hsr] at h2
          simpa using h2
        rw [show splitRuns (c :: t) = (c :: tok0) :: rest by simp [splitRuns, h, hsr]] at htok
        rcases List.mem_cons.mp htok with rfl | hmem
        · constructor
          · have hpre : c :: tok0 <+: c :: t := by
              rw [htok0]
              exact ⟨t.dropWhile (fun c => !isSepChar c), by
                simp [List.takeWhile_append_dropWhile]⟩
            exact hpre.isInfix
          · intro ch hch
            rcases List.mem_cons.mp hch with rfl | hch'
            · simpa using h
            · rw [htok0] at hch'
              have := List.mem_takeWhile_imp hch'
              simpa using this
        · have hmem' : tok ∈ splitRuns t := by rw [hsr]; exact List.mem_cons_of_mem tok0 hmem
          obtain ⟨hinf, hchars⟩ := ih tok hmem'
          exact ⟨hinf.trans (List.suffix_cons c t).isInfix, hchars⟩

theorem isWsChar_eq_false {c : Char} (h : isSepChar c = false) : isWsChar c = false := by
  unfold isSepChar at h
  exact (Bool.or_eq_false_iff.mp h).1

theorem mem_foldl_setAdd (l acc : List String) (x : String) :
    x ∈ l.foldl setAdd acc ↔ x ∈ acc ∨ x ∈ l := by
  induction l generalizing acc with
  | nil => simp
  | cons y t ih =>
    rw [List.foldl_cons, ih]
    unfold setAdd
    by_cases h : y ∈ acc
    · rw [if_pos h]
      simp only [List.mem_cons]
      constructor
      · rintro (hx | hx)
        · exact Or.inl hx
        · exact Or.inr (Or.inr hx)
      · rintro (hx | rfl | hx)
        · exact Or.inl hx
        · exact Or.inl h
        · exact Or.inr hx
    · rw [if_neg h]
      simp only [List.mem_cons]
      tauto

theorem nodup_foldl_setAdd (l : List String) {acc : List String} (h : acc.Nodup) :
    (l.foldl setAdd acc).Nodup := by
  induction l generalizing acc with
  | nil => exact h
  | cons y t ih =>
    rw [List.foldl_cons]
    apply ih
    unfold setAdd
    by_cases hy : y ∈ acc
    · rwa [if_pos hy]
    · rw [if_neg hy]
      exact List.nodup_cons.mpr ⟨hy, h⟩

theorem mem_domainAccum (d x : String) (records : List String) :
    x ∈ domainAccum d records ↔ ∃ r ∈ records, x ∈ recordCandidates d r := by
  unfold domainAccum
  rw [mem_foldl_setAdd]
  simp [List.mem_flatMap]

theorem domainAccum_nodup (d : String) (records : List String) :
    (domainAccum d records).Nodup :=
  nodup_foldl_setAdd _ List.nodup_nil

theorem extract_perm (d : String) (records : List String) :
    (extract d records).Perm (domainAccum d records) :=
  List.perm_insertionSort _ _

theorem mem_extract (d x : String) (records : List String) :
    x ∈ extract d records ↔ ∃ r ∈ records, x ∈ recordCandidates d r := by
  rw [(extract_perm d records).mem_iff, mem_domainAccum]

theorem extract_sorted_le (d : String) (records : List String) :
    List.Sorted strLe (extract d records) :=
  List.sorted_insertionSort strLe _

theorem extract_nodup (d : String) (records : List String) : (extract d records).Nodup :=
  ((extract_perm d records).nodup_iff).mpr (domainAccum_nodup d records)

theorem toFinset_domainAccum (d : String) (records : List String) :
    (domainAccum d records).toFinset = (records.flatMap (recordCandidates d)).toFinset := by
  ext x
  simp [mem_domainAccum, List.mem_flatMap]

theorem keepOrRecover_mem {d sub x : String} (hx : x ∈ keepOrRecover d sub) :
    x ≠ "" ∧ pyContains "." x = true ∧ pyContains d x = true := by
  unfold keepOrRecover at hx
  split at hx
  · rw [List.mem_filterMap] at hx
    obtain ⟨part, _, hpart⟩ := hx
    split at hpart
    · obtain rfl := Option.some.inj hpart
      rename_i hcond
      exact ⟨hcond.1, hcond.2, pyContains_append_self part d⟩
    · cases hpart
  · split at hx
    · rename_i hcond
      rw [List.mem_singleton] at hx
      subst hx
      exact hcond
    · simp at hx

theorem keepOrRecover_single {d u : String} (hcount : pyCount d u = 1)
    (hcontains : pyContains d u = true) (hne : u ≠ "") :
    keepOrRecover d u = if pyContains "." u = true then [u] else [] := by
  unfold keepOrRecover
  rw [if_neg (by omega : ¬ pyCount d u > 1)]
  by_cases hdot : pyContains "." u = true
  · rw [if_pos ⟨hne, hdot, hcontains⟩, if_pos hdot]
  · rw [if_neg (by tauto), if_neg hdot]

theorem validSubdomain_contains {d u : String} (h : ValidSubdomain d u) :
    pyContains d u = true := by
  rcases h.1 with rfl | ⟨pre, _, rfl⟩
  · exact containsSub_append_self [] u.data
  · exact pyContains_append_self (pre ++ ".") d

theorem validSubdomain_ne_empty {d u : String} (hd : d ≠ "") (h : ValidSubdomain d u) :
    u ≠ "" :=
  pyContains_ne_empty hd (validSubdomain_contains h)

theorem tokenCandidates_mem {d tok x : String} (hx : x ∈ tokenCandidates d tok) :
    x ≠ "" ∧ pyContains "." x = true ∧ pyContains d x = true :=
  keepOrRecover_mem hx

theorem recordCandidates_mem {d r x : String} (hx : x ∈ recordCandidates d r) :
    x ≠ "" ∧ pyContains "." x = true ∧ pyContains d x = true := by
  unfold recordCandidates at hx
  split at hx
  · rw [List.mem_flatMap] at hx
    obtain ⟨tok, _, htok⟩ := hx
    exact tokenCandidates_mem htok
  · simp at hx

theorem stripWildcard_eq_self {u : String} (h : startsWithStar u = false) :
    stripWildcard u = u := by
  simp [stripWildcard, h]

theorem stripWildcard_marker (u : String) : stripWildcard ("*." ++ u) = u := by
  have h : startsWithStar ("*." ++ u) = true := by
    unfold startsWithStar
    rw [String.data_append]
    simp [List.isPrefixOf]
  unfold stripWildcard
  rw [if_pos h]
  cases u with
  | mk l => rfl

theorem tokenCandidates_empty {d : String} (hd : d ≠ "") : tokenCandidates d "" = [] := by
  obtain ⟨c, cs, hdl⟩ := List.exists_cons_of_ne_nil ((ne_empty_iff_data d).mp hd)
  show keepOrRecover d "" = []
  have h0 : pyCount d "" = 0 := by
    unfold pyCount countOccs
    rw [hdl]
    rfl
  unfold keepOrRecover
  rw [h0]
  rw [if_neg (by omega)]
  rw [if_neg (by simp)]

theorem tokenCandidates_clean {d t : String} (hd : d ≠ "")
    (hsep : ∀ c ∈ t.data, isSepChar c = false) (hc : CleanToken d t) :
    tokenCandidates d t =
      if pyContains "." (stripWildcard t) = true then [stripWildcard t] else [] := by
  have hstrip : pyStrip t = t :=
    pyStrip_eq_self (fun c hch => isWsChar_eq_false (hsep c hch))
  show keepOrRecover d (stripWildcard (pyStrip t)) = _
  rw [hstrip]
  rcases hc with hv | ⟨u, rfl, hv⟩
  · rw [stripWildcard_eq_self hv.2.2]
    exact keepOrRecover_single hv.2.1 (validSubdomain_contains hv)
      (validSubdomain_ne_empty hd hv)
  · rw [stripWildcard_marker]
    exact keepOrRecover_single hv.2.1 (validSubdomain_contains hv)
      (validSubdomain_ne_empty hd hv)

theorem flatMap_tokenCandidates_clean {d : String} (hd : d ≠ "") (toks : List String)
    (hsep : ∀ t ∈ toks, ∀ c ∈ t.data, isSepChar c = false)
    (hc : ∀ t ∈ toks, t ≠ "" → CleanToken d t) :
    toks.flatMap (tokenCandidates d) =
      (toks.filter (fun t => (t != "") && pyContains "." (stripWildcard t))).map
        stripWildcard := by
  induction toks with
  | nil => rfl
  | cons t rest ih =>
    rw [List.flatMap_cons, List.filter_cons]
    have hrest := ih (fun t' ht' => hsep t' (List.mem_cons_of_mem t ht'))
      (fun t' ht' => hc t' (List.mem_cons_of_mem t ht'))
    by_cases ht : t = ""
    · subst ht
      rw [tokenCandidates_empty hd]
      simp [hrest]
    · have hct := hc t (List.mem_cons_self t rest) ht
      rw [tokenCandidates_clean hd (hsep t (List.mem_cons_self t rest)) hct]
      by_cases hdot : pyContains "." (stripWildcard t) = true
      · rw [if_pos hdot]
        have hcond : ((t != "") && pyContains "." (stripWildcard t)) = true := by
          simp [ht, hdot]
        rw [if_pos hcond, List.map_cons, hrest]
        rfl
      · rw [if_neg hdot]
        have hcond : ((t != "") && pyContains "." (stripWildcard t)) = false := by
          simp [ht]
          exact Bool.not_eq_true _ ▸ hdot
        simp only [hcond, Bool.false_eq_true, if_false, List.nil_append]
        exact hrest

theorem pyContains_of_isInfix {d t raw : String} (ht : pyContains d t = true)
    (hinf : t.data <:+: raw.data) : pyContains d raw = true := by
  unfold pyContains at ht ⊢
  rw [containsSub_iff_isInfix] at ht ⊢
  exact ht.trans hinf

theorem cleanToken_contains {d t : String} (hct : CleanToken d t) :
    pyContains d t = true := by
  rcases hct with hv | ⟨u, rfl, hv⟩
  · exact validSubdomain_contains hv
  · have hu := validSubdomain_contains hv
    unfold pyContains at hu ⊢
    rw [String.data_append]
    rw [containsSub_iff_isInfix] at hu ⊢
    exact hu.trans (List.suffix_append _ _).isInfix

theorem recordCandidates_clean {d raw : String} (hd : d ≠ "")
    (hc : ∀ t ∈ pySplitSep raw, t ≠ "" → CleanToken d t) :
    recordCandidates d raw =
      ((pySplitSep raw).filter (fun t => (t != "") && pyContains "." (stripWildcard t))).map
        stripWildcard := by
  have hsep : ∀ t ∈ pySplitSep raw, ∀ c ∈ t.data, isSepChar c = false := by
    intro t ht c hch
    unfold pySplitSep at ht
    rw [List.mem_map] at ht
    obtain ⟨l, hl, rfl⟩ := ht
    exact (splitRuns_mem raw.data l hl).2 c hch
  have hinf : ∀ t ∈ pySplitSep raw, t.data <:+: raw.data := by
    intro t ht
    unfold pySplitSep at ht
    rw [List.mem_map] at ht
    obtain ⟨l, hl, rfl⟩ := ht
    exact (splitRuns_mem raw.data l hl).1
  unfold recordCandidates
  by_cases hraw : raw = ""
  · subst hraw
    rw [if_neg (by simp)]
    rfl
  · by_cases hcontains : pyContains d raw = true
    · rw [if_pos ⟨hraw, hcontains⟩]
      exact flatMap_tokenCandidates_clean hd _ hsep hc
    · rw [if_neg (by tauto)]
      symm
      rw [List.map_eq_nil_iff, List.filter_eq_nil_iff]
      intro t ht
      by_cases hte : t = ""
      · simp [hte]
      · exact absurd (pyContains_of_isInfix (cleanToken_contains (hc t ht hte)) (hinf t ht))
          hcontains

theorem extract_toFinset (d : String) (records : List String) :
    (extract d records).toFinset = (domainAccum d records).toFinset :=
  List.toFinset_eq_of_perm _ _ (extract_perm d records)

theorem extract_eq_of_perm {d : String} {r1 r2 : List String} (h : r1.Perm r2) :
    extract d r1 = extract d r2 := by
  have hflat : (r1.flatMap (recordCandidates d)).Perm (r2.flatMap (recordCandidates d)) :=
    h.flatMap_right (recordCandidates d)
  have hfin : (domainAccum d r1).toFinset = (domainAccum d r2).toFinset := by
    rw [toFinset_domainAccum, toFinset_domainAccum]
    exact List.toFinset_eq_of_perm _ _ hflat
  have hperm : (domainAccum d r1).Perm (domainAccum d r2) :=
    List.perm_of_nodup_nodup_toFinset_eq (domainAccum_nodup d r1) (domainAccum_nodup d r2) hfin
  exact List.eq_of_perm_of_sorted
    ((extract_perm d r1).trans (hperm.trans (extract_perm d r2).symm))
    (extract_sorted_le d r1) (extract_sorted_le d r2)

theorem checkTrace_secure {t : String → Option HeadResponse} {d : String} {r : HeadResponse}
    (hh : t ("https://" ++ d) = some r) :
    checkDomainStatusTrace t d =
      (.ok d ("https://" ++ d) r.status (decide (r.finalUrl ≠ "https://" ++ d)),
        ["https://" ++ d]) := by
  unfold checkDomainStatusTrace
  rw [hh]

theorem checkTrace_plain {t : String → Option HeadResponse} {d : String} {r : HeadResponse}
    (hh : t ("https://" ++ d) = none) (hp : t ("http://" ++ d) = some r) :
    checkDomainStatusTrace t d =
      (.ok d ("http://" ++ d) r.status (decide (r.finalUrl ≠ "http://" ++ d)),
        ["https://" ++ d, "http://" ++ d]) := by
  unfold checkDomainStatusTrace
  rw [hh, hp]

theorem checkTrace_bothFail {t : String → Option HeadResponse} {d : String}
    (hh : t ("https://" ++ d) = none) (hp : t ("http://" ++ d) = none) :
    checkDomainStatusTrace t d =
      (.err d ("http://" ++ d), ["https://" ++ d, "http://" ++ d]) := by
  unfold checkDomainStatusTrace
  rw [hh, hp]

theorem flatMap_recordCandidates_eq_filter (d : String) (rs : List String) :
    rs.flatMap (recordCandidates d) =
      (rs.filter (fun r => (r != "") && pyContains d r)).flatMap
        (fun r => (pySplitSep r).flatMap (tokenCandidates d)) := by
  induction rs with
  | nil => rfl
  | cons r rest ih =>
    rw [List.flatMap_cons, List.filter_cons]
    by_cases hg : r ≠ "" ∧ pyContains d r = true
    · have hcond : ((r != "") && pyContains d r) = true := by simp [hg.1, hg.2]
      rw [if_pos hcond, List.flatMap_cons, ih]
      unfold recordCandidates
      rw [if_pos hg]
    · have hcond : ((r != "") && pyContains d r) = false := by
        rcases not_and_or.mp hg with he | hc
        · simp [not_not.mp he]
        · simp [Bool.eq_false_iff.mpr hc]
      rw [if_neg (by simp [hcond]), ih]
      unfold recordCandidates
      rw [if_neg hg, List.nil_append]

/-! ### The claims -/

/-- C1: Concatenation recovery.  For every token in which the target domain
occurs more than once (counted, as the code does, after whitespace- and
wildcard-stripping), the kept candidates are exactly the fragments of the
split on the target domain, all but the last, re-extended by the domain,
kept if and only if non-empty and containing at least one `.`; and
extracting the raw record `"a.example.comwww.a.example.com"` with target
domain `example.com` yields exactly the set
`{"a.example.com", "www.a.example.com"}`. -/
theorem concatenation_recovery (d tok x : String)
    (hmulti : pyCount d (stripWildcard (pyStrip tok)) > 1) :
    (x ∈ tokenCandidates d tok ↔
      ∃ part ∈ (pySplit d (stripWildcard (pyStrip tok))).dropLast,
        x = part ++ d ∧ x ≠ "" ∧ pyContains "." x = true) ∧
    extract "example.com" ["a.example.comwww.a.example.com"] =
      ["a.example.com", "www.a.example.com"] := by
  constructor
  · show x ∈ keepOrRecover d (stripWildcard (pyStrip tok)) ↔ _
    unfold keepOrRecover
    rw [if_pos hmulti]
    rw [List.mem_filterMap]
    constructor
    · rintro ⟨part, hmem, hpart⟩
      split at hpart
      · rename_i hcond
        obtain rfl := Option.some.inj hpart
        exact ⟨part, hmem, rfl, hcond.1, hcond.2⟩
      · cases hpart
    · rintro ⟨part, hmem, rfl, hne, hdot⟩
      refine ⟨part, hmem, ?_⟩
      rw [if_pos ⟨hne, hdot⟩]
  · decide

/-- Witness for `concatenation_recovery` at the spec's own example. -/
theorem concatenation_recovery_witness :
    pyCount "example.com" (stripWildcard (pyStrip "a.example.comwww.a.example.com")) > 1 ∧
    ("a.example.com" ∈ tokenCandidates "example.com" "a.example.comwww.a.example.com" ↔
      ∃ part ∈ (pySplit "example.com"
          (stripWildcard (pyStrip "a.example.comwww.a.example.com"))).dropLast,
        "a.example.com" = part ++ "example.com" ∧ "a.example.com" ≠ "" ∧
          pyContains "." "a.example.com" = true) :=
  ⟨by decide, (concatenation_recovery "example.com" "a.example.comwww.a.example.com"
    "a.example.com" (by decide)).1⟩

/-- C2: Per-domain probe protocol.  For every transport (returning real HTTP
status codes, i.e. never 0) and every domain: the secure HEAD attempt comes
first and, on success, is the only request; on its failure exactly one
plain retry is made; the recorded `status_code` is 0 only when both
attempts failed, in which case the failure is still returned as a result
dict; and a domain whose secure endpoint is unreachable but whose plain
endpoint answers 200 yields a result with status 200 recording only the
plain attempt. -/
theorem probe_protocol (t : String → Option HeadResponse) (d : String)
    (hwf : ∀ u r, t u = some r → r.status ≠ 0) :
    (∀ r, t ("https://" ++ d) = some r →
      checkDomainStatusTrace t d =
        (.ok d ("https://" ++ d) r.status (decide (r.finalUrl ≠ "https://" ++ d)),
          ["https://" ++ d])) ∧
    (t ("https://" ++ d) = none →
      (checkDomainStatusTrace t d).2 = ["https://" ++ d, "http://" ++ d]) ∧
    ((check_domain_status t d).statusCode = 0 →
      t ("https://" ++ d) = none ∧ t ("http://" ++ d) = none) ∧
    (t ("https://" ++ d) = none → t ("http://" ++ d) = none →
      check_domain_status t d = .err d ("http://" ++ d)) ∧
    (∀ r, t ("https://" ++ d) = none → t ("http://" ++ d) = some r → r.status = 200 →
      check_domain_status t d =
        .ok d ("http://" ++ d) 200 (decide (r.finalUrl ≠ "http://" ++ d))) := by
  refine ⟨fun r hh => checkTrace_secure hh, ?_, ?_, ?_, ?_⟩
  · intro hh
    cases hp : t ("http://" ++ d) with
    | some r => rw [checkTrace_plain hh hp]
    | none => rw [checkTrace_bothFail hh hp]
  · intro h0
    cases hh : t ("https://" ++ d) with
    | some r =>
      unfold check_domain_status at h0
      rw [checkTrace_secure hh] at h0
      exact absurd h0 (hwf _ r hh)
    | none =>
      cases hp : t ("http://" ++ d) with
      | some r =>
        unfold check_domain_status at h0
        rw [checkTrace_plain hh hp] at h0
        exact absurd h0 (hwf _ r hp)
      | none => exact ⟨rfl, rfl⟩
  · intro hh hp
    unfold check_domain_status
    rw [checkTrace_bothFail hh hp]
  · intro r hh hp h200
    unfold check_domain_status
    rw [checkTrace_plain hh hp, h200]

/-- Witness for `probe_protocol`: the fixture transport in which the secure
endpoint is unreachable and the plain endpoint answers 200. -/
theorem probe_protocol_witness :
    check_domain_status fallbackTransport "example.com" =
      .ok "example.com" "http://example.com" 200 true := by
  have h := (probe_protocol fallbackTransport "example.com"
    (by intro u r h; unfold fallbackTransport at h; split at h
        · cases Option.some.inj h; decide
        · cases h)).2.2.2.2
    ⟨200, "http://example.com/"⟩ (by decide) (by decide) rfl
  rw [h]
  decide

/-- C3 counterexample: the raw record `"*.*.example.com"` makes the
extracted set contain exactly `"*.example.com"`, which is the
wildcard-marked form of the target domain — refuting the claim's
wildcard-marker clause. -/
theorem domainset_wildcard_counterexample :
    extract "example.com" ["*.*.example.com"] = ["*.example.com"] ∧
    "*.example.com" = "*." ++ "example.com" ∧
    startsWithStar "*.example.com" = true :=
  ⟨by decide, by decide, by decide⟩

/-- C3 (amended): for every raw record list and every non-empty target
domain, the extracted set never contains the empty string, every member
contains at least one `.`, and every member contains the target domain as
a substring.  (The original claim's further clause — that no member carries
the `*.` wildcard marker — is false: only one leading `*.` is stripped per
token, see `domainset_wildcard_counterexample`.) -/
theorem domainset_invariant (d x : String) (records : List String) (hd : d ≠ "")
    (hx : x ∈ extract d records) :
    x ≠ "" ∧ pyContains "." x = true ∧ pyContains d x = true := by
  rw [mem_extract] at hx
  obtain ⟨r, _, hr⟩ := hx
  exact recordCandidates_mem hr

/-- Witness for `domainset_invariant`. -/
theorem domainset_invariant_witness :
    "a.example.com" ≠ "" ∧ pyContains "." "a.example.com" = true ∧
      pyContains "example.com" "a.example.com" = true :=
  domainset_invariant "example.com" "a.example.com" ["a.example.com"]
    (by decide) (by decide)

/-- C4: Clean-input exactness.  For raw text whose tokens are all valid
subdomains of the (non-empty) target domain, optionally wildcard-marked,
the extracted set is exactly the token set with `*.` markers stripped,
minus the entries lacking a `.`. -/
theorem clean_input_exact (d raw : String) (hd : d ≠ "")
    (hclean : ∀ t ∈ pySplitSep raw, t ≠ "" → CleanToken d t) :
    (extract d [raw]).toFinset =
      (((pySplitSep raw).filter
          (fun t => (t != "") && pyContains "." (stripWildcard t))).map
        stripWildcard).toFinset := by
  rw [extract_toFinset, toFinset_domainAccum]
  rw [List.flatMap_cons, List.flatMap_nil, List.append_nil]
  rw [recordCandidates_clean hd hclean]

/-- Witness for `clean_input_exact`: a raw text of one plain and one
wildcarded subdomain. -/
theorem clean_input_exact_witness :
    (∀ t ∈ pySplitSep "foo.example.com *.bar.example.com", t ≠ "" →
      CleanToken "example.com" t) ∧
    (extract "example.com" ["foo.example.com *.bar.example.com"]).toFinset =
      (((pySplitSep "foo.example.com *.bar.example.com").filter
          (fun t => (t != "") && pyContains "." (stripWildcard t))).map
        stripWildcard).toFinset := by
  have hclean : ∀ t ∈ pySplitSep "foo.example.com *.bar.example.com", t ≠ "" →
      CleanToken "example.com" t := by
    intro t ht _
    have hsplit : pySplitSep "foo.example.com *.bar.example.com" =
        ["foo.example.com", "*.bar.example.com"] := by decide
    rw [hsplit] at ht
    rcases List.mem_cons.mp ht with rfl | ht2
    · exact Or.inl ⟨Or.inr ⟨"foo", by decide, by decide⟩, by decide, by decide⟩
    · rcases List.mem_cons.mp ht2 with rfl | ht3
      · exact Or.inr ⟨"bar.example.com", by decide,
          Or.inr ⟨"bar", by decide, by decide⟩, by decide, by decide⟩
      · simp at ht3
  exact ⟨hclean, clean_input_exact "example.com" "foo.example.com *.bar.example.com"
    (by decide) hclean⟩

/-- C5: JSON fallback.  A JSON fetch failure (transport error or decode
failure, both modelled by `jsonResp = none`) triggers exactly one fallback
call to the HTML adapter with the identical argument tuple, and never a
second one; a successful JSON fetch triggers none; and when the HTML path
also fails the result is the empty list, not an error. -/
theorem json_fallback (a : FetchArgs) (jsonResp : Option (List (Option String)))
    (htmlResp : Option (List (List String))) :
    ((get_domains_from_json a jsonResp htmlResp).2.length ≤ 1) ∧
    (jsonResp = none →
      get_domains_from_json a jsonResp htmlResp = (get_domains_from_html a htmlResp, [a])) ∧
    (∀ entries, jsonResp = some entries →
      (get_domains_from_json a jsonResp htmlResp).2 = []) ∧
    (jsonResp = none → htmlResp = none →
      (get_domains_from_json a jsonResp htmlResp).1 = []) := by
  cases jsonResp with
  | none =>
    refine ⟨by simp [get_domains_from_json], fun _ => rfl,
      fun entries h => Option.noConfusion h, ?_⟩
    intro _ hh
    subst hh
    rfl
  | some entries =>
    exact ⟨by simp [get_domains_from_json], fun h => Option.noConfusion h, fun _ _ => rfl,
      fun h => Option.noConfusion h⟩

/-- Witness for `json_fallback`. -/
theorem json_fallback_witness :
    get_domains_from_json ⟨"example.com", false, false, 30, false⟩ none none =
      (get_domains_from_html ⟨"example.com", false, false, 30, false⟩ none,
        [⟨"example.com", false, false, 30, false⟩]) ∧
    (get_domains_from_json ⟨"example.com", false, false, 30, false⟩ none none).1 = [] := by
  have h := json_fallback ⟨"example.com", false, false, 30, false⟩ none none
  exact ⟨h.2.1 rfl, h.2.2.2 rfl rfl⟩

/-- C6 counterexample: a transport whose secure HEAD lands on a final URL
with the same host but a different path.  The recorded `redirected` flag is
`true` although the final host equals the requested host, and the recorded
`url` is the requested URL, not the final URL — refuting the
host-comparison reading of the claim. -/
theorem probe_fields_counterexample :
    check_domain_status pathRedirectTransport "example.com" =
      .ok "example.com" "https://example.com" 200 true ∧
    urlHost "https://example.com/login" = urlHost "https://example.com" ∧
    "https://example.com" ≠ "https://example.com/login" :=
  ⟨by decide, by decide, by decide⟩

/-- C6 (amended): for every probe attempt that succeeds, the result records
the requested URL of the successful scheme (not the response's final URL),
and its `redirected` flag is true if and only if the response's final URL
differs from that requested URL as a full URL string (not merely by
host). -/
theorem probe_recorded_fields (t : String → Option HeadResponse) (d : String) :
    (∀ r, t ("https://" ++ d) = some r →
      check_domain_status t d =
        .ok d ("https://" ++ d) r.status (decide (r.finalUrl ≠ "https://" ++ d))) ∧
    (∀ r, t ("https://" ++ d) = none → t ("http://" ++ d) = some r →
      check_domain_status t d =
        .ok d ("http://" ++ d) r.status (decide (r.finalUrl ≠ "http://" ++ d))) := by
  constructor
  · intro r hh
    unfold check_domain_status
    rw [checkTrace_secure hh]
  · intro r hh hp
    unfold check_domain_status
    rw [checkTrace_plain hh hp]

/-- Witness for `probe_recorded_fields`. -/
theorem probe_recorded_fields_witness :
    check_domain_status pathRedirectTransport "example.com" =
      .ok "example.com" "https://example.com" 200
        (decide (("https://example.com/login" : String) ≠ "https://example.com")) :=
  (probe_recorded_fields pathRedirectTransport "example.com").1
    ⟨200, "https://example.com/login"⟩ (by decide)

/-- C8: each adapter returns a duplicate-free list sorted lexicographically
ascending, and the finished list is the same for record sequences that are
permutations of each other (so re-running the extraction, in any record
order, yields the same final set). -/
theorem dedup_sorted_order_independent (d : String) (records records' : List String)
    (hperm : records.Perm records') (a : FetchArgs)
    (htmlResp : Option (List (List String))) (jsonResp : Option (List (Option String))) :
    List.Sorted strLe (get_domains_from_html a htmlResp) ∧
    (get_domains_from_html a htmlResp).Nodup ∧
    List.Sorted strLe (get_domains_from_json a jsonResp htmlResp).1 ∧
    (get_domains_from_json a jsonResp htmlResp).1.Nodup ∧
    extract d records = extract d records' := by
  have hhtml : List.Sorted strLe (get_domains_from_html a htmlResp) ∧
      (get_domains_from_html a htmlResp).Nodup := by
    cases htmlResp with
    | none => exact ⟨List.sorted_nil, List.nodup_nil⟩
    | some rows => exact ⟨extract_sorted_le _ _, extract_nodup _ _⟩
  have hjson : List.Sorted strLe (get_domains_from_json a jsonResp htmlResp).1 ∧
      (get_domains_from_json a jsonResp htmlResp).1.Nodup := by
    cases jsonResp with
    | some entries => exact ⟨extract_sorted_le _ _, extract_nodup _ _⟩
    | none => exact hhtml
  exact ⟨hhtml.1, hhtml.2, hjson.1, hjson.2, extract_eq_of_perm hperm⟩

/-- Witness for `dedup_sorted_order_independent`. -/
theorem dedup_sorted_order_independent_witness :
    (["b.example.com", "a.example.com"] : List String).Perm
      ["a.example.com", "b.example.com"] ∧
    extract "example.com" ["b.example.com", "a.example.com"] =
      extract "example.com" ["a.example.com", "b.example.com"] :=
  ⟨by decide, (dedup_sorted_order_independent "example.com"
    ["b.example.com", "a.example.com"] ["a.example.com", "b.example.com"] (by decide)
    ⟨"example.com", false, false, 30, false⟩ none none).2.2.2.2⟩

/-- C9: a target domain without a `.` makes `main` exit with code 1 before
any network call; any other domain gives exit code 0 with the fetch issued,
including when no domains are found. -/
theorem invalid_domain_exit (a : FetchArgs) (useJson : Bool)
    (jsonResp : Option (List (Option String))) (htmlResp : Option (List (List String))) :
    (pyContains "." a.domain = false →
      mainRun a useJson jsonResp htmlResp = ⟨1, false, none⟩) ∧
    (pyContains "." a.domain = true →
      (mainRun a useJson jsonResp htmlResp).exitCode = 0 ∧
      (mainRun a useJson jsonResp htmlResp).networkUsed = true) := by
  constructor
  · intro h
    unfold mainRun
    rw [if_pos (Or.inr (by simp [h]))]
  · intro h
    have hne : ¬(a.domain = "" ∨ ¬ pyContains "." a.domain = true) := by
      rintro (he | hnc)
      · rw [he] at h
        exact absurd h (by decide)
      · exact hnc h
    constructor
    · simp only [mainRun, if_neg hne]
      split <;> split <;> rfl
    · simp only [mainRun, if_neg hne]
      split <;> split <;> rfl

/-- Witness for `invalid_domain_exit`. -/
theorem invalid_domain_exit_witness :
    pyContains "." "nodot" = false ∧
    mainRun ⟨"nodot", false, false, 30, false⟩ false none none = ⟨1, false, none⟩ ∧
    pyContains "." "example.com" = true ∧
    (mainRun ⟨"example.com", false, false, 30, false⟩ false none none).exitCode = 0 := by
  refine ⟨by decide, ?_, by decide, ?_⟩
  · exact (invalid_domain_exit ⟨"nodot", false, false, 30, false⟩ false none none).1 (by decide)
  · exact ((invalid_domain_exit ⟨"example.com", false, false, 30, false⟩ false none none).2
      (by decide)).1

/-- C10 counterexample: a 7-cell row whose sixth cell is `"nope"` (non-empty
but without the target domain) and whose last cell is a valid subdomain.
The adapter selects the sixth cell, not the last, and does not pass the
non-empty record `"nope"` to the tokenizer: the extraction is empty, even
though the last cell as a record would have produced a domain. -/
theorem html_selection_counterexample :
    get_domains_from_html ⟨"example.com", false, false, 30, false⟩
        (some [["a", "b", "c", "d", "e", "nope", "x.example.com"]]) = [] ∧
    htmlRecords [["a", "b", "c", "d", "e", "nope", "x.example.com"]] = ["nope"] ∧
    ("nope" : String) ≠ "" ∧
    recordCandidates "example.com" "x.example.com" = ["x.example.com"] :=
  ⟨by decide, by decide, by decide, by decide⟩

/-- C10 (amended): the HTML adapter takes one record from each table row
with at least six cells, namely the stripped text of the sixth cell
(index 5), and tokenizes a record exactly when it is non-empty and contains
the target domain as a substring. -/
theorem html_record_selection (d : String) (rows : List (List String)) :
    htmlRecords rows = (rows.filter (fun cells => decide (6 ≤ cells.length))).map
        (fun cells => pyStrip (cells.getD 5 "")) ∧
    (htmlRecords rows).flatMap (recordCandidates d) =
      ((htmlRecords rows).filter (fun r => (r != "") && pyContains d r)).flatMap
        (fun r => (pySplitSep r).flatMap (tokenCandidates d)) := by
  constructor
  · induction rows with
    | nil => rfl
    | cons cells rest ih =>
      by_cases h : 6 ≤ cells.length
      · simp [htmlRecords, List.filterMap_cons, List.filter_cons, h] at ih ⊢
        exact ih
      · simp [htmlRecords, List.filterMap_cons, List.filter_cons, h] at ih ⊢
        exact ih
  · exact flatMap_recordCandidates_eq_filter d (htmlRecords rows)

end CrtScraper
